import Mathlib

/-!
Verification of the `aria` tokenizer core (src/aria/tokenizer/tokenizer.py and
src/aria/data/datasets.py) against its natural-language specification.

The Python source is shallowly embedded below.  Machine integers are modelled
as `Int` (Python ints are unbounded, so no wrap-around is needed), Python
floats appearing in the tempo/duration arithmetic are modelled as exact
rationals (`Rat`), and fallible code paths (list indexing into an empty list,
dictionary `KeyError`) are modelled with `Except`.
-/

namespace Aria

/-- Python's built-in `round`: round half to even (banker's rounding),
applied at the end of `_get_duration_ms`. -/
def pyRound (q : ℚ) : ℤ :=
  let f := q.floor
  let r := q - (f : ℚ)
  if r < 1/2 then f
  else if 1/2 < r then f + 1
  else if f % 2 = 0 then f else f + 1

/-- `mido.midifiles.units.tick2second`: `scale = tempo * 1e-6 / ticks_per_beat;
return tick * scale`.  Exact-rational model of the float computation.
(`tpb = 0` would raise `ZeroDivisionError` in Python; in `Rat` it yields 0.) -/
def tick2second (tick tempo tpb : ℤ) : ℚ :=
  (tick : ℚ) * ((tempo : ℚ) * (1 / 1000000) / (tpb : ℚ))

/-- The segment-summation loop of `_get_duration_ms` (lines 706-722):
iterates over `zip(tempo_msgs[idx:], tempo_msgs[idx+1:])`, i.e. adjacent
pairs of the suffix; carries `(duration, curr_tick)`.  `break` is modelled by
returning without consuming the rest. -/
def segLoop (end_tick tpb : ℤ) : List (ℤ × ℤ) → ℤ → ℚ → ℚ × ℤ
  | m1 :: m2 :: rest, curr_tick, dur =>
    let delta := if end_tick < m2.1 then end_tick - curr_tick else m2.1 - curr_tick
    let dur2 := dur + tick2second delta m1.2 tpb
    if end_tick < m2.1 then (dur2, curr_tick)
    else segLoop end_tick tpb (m2 :: rest) m2.1 dur2
  | _, curr_tick, dur => (dur, curr_tick)

/-- `_get_duration_ms(start_tick, end_tick, tempo_msgs, ticks_per_beat)`
(lines 683-738).  A tempo message is modelled as `(tick, data)`.
The initial index scan `for idx, curr_msg in enumerate(tempo_msgs): if
start_tick <= curr_msg["tick"]: break` leaves `idx` at the first index whose
tick is `≥ start_tick`, or at `len - 1` if the loop falls through; the code
then decrements it when positive.  (An empty tempo list would raise a
`NameError` in Python; the claims assume at least one entry, we return 0.) -/
def get_duration_ms (start_tick end_tick : ℤ) (tempo_msgs : List (ℤ × ℤ))
    (tpb : ℤ) : ℤ :=
  match tempo_msgs with
  | [] => 0
  | _ :: _ =>
    let i0 := min (tempo_msgs.findIdx (fun m => start_tick ≤ m.1))
      (tempo_msgs.length - 1)
    let idx := if 0 < i0 then i0 - 1 else i0
    let p := segLoop end_tick tpb (tempo_msgs.drop idx) start_tick 0
    let lastMsg := tempo_msgs.getLastD (0, 0)
    let d2 := if lastMsg.1 < end_tick
      then p.1 + tick2second (end_tick - p.2) lastMsg.2 tpb
      else p.1
    pyRound (d2 * 1000)

/-- Length of the tick overlap of `[a, b)` with `[lo, hi)`. -/
def overlapTicks (a b lo hi : ℤ) : ℤ := max 0 (min b hi - max a lo)

/-- Sum of the segment contributions of a tempo map to the time integral of
`[s, e)`: each adjacent pair `(t1, r1), (t2, r2)` contributes the ticks of
`[s, e) ∩ [t1, t2)` at tempo `r1`. -/
def specSegSum (s e tpb : ℤ) : List (ℤ × ℤ) → ℚ
  | (t1, r1) :: (t2, r2) :: rest =>
    tick2second (overlapTicks s e t1 t2) r1 tpb + specSegSum s e tpb ((t2, r2) :: rest)
  | _ => 0

/-- Modelled from the spec (§4.4 Duration Calculator): the piecewise-constant
time integral of `[s, e)` over the tempo map — each segment's tick span at
that segment's tempo, extrapolating past the last entry with the last tempo
(ticks before the first entry use the first entry's tempo), rounded to the
nearest millisecond exactly once at the end. -/
def specDurationMs (s e : ℤ) (tempo_msgs : List (ℤ × ℤ)) (tpb : ℤ) : ℤ :=
  match tempo_msgs with
  | [] => 0
  | first :: _ =>
    let lastMsg := tempo_msgs.getLastD (0, 0)
    let before := tick2second (max 0 (min e first.1 - s)) first.2 tpb
    let tail := tick2second (max 0 (e - max s lastMsg.1)) lastMsg.2 tpb
    pyRound ((before + specSegSum s e tpb tempo_msgs + tail) * 1000)

/-- The loop of `TokenizerLazy._find_closest_int` (lines 261-281), with the
Python state `(left, right)` carried as `(left, hi)` where `hi = right + 1`
(so all state stays non-negative; `right = -1` becomes `hi = 0`).  `closest`
starts as `float("inf")`, modelled as `none`: the first comparison
`diff < abs(closest - n)` always succeeds against infinity. -/
def fciGo (l : List ℤ) (n : ℤ) (left hi : ℕ) (closest : Option ℤ) : Option ℤ :=
  if h : left < hi then
    let mid := (left + hi - 1) / 2
    let v := l.getD mid 0
    let closest2 := match closest with
      | none => some v
      | some c => if (v - n).natAbs < (c - n).natAbs then some v else some c
    if v < n then fciGo l n (mid + 1) hi closest2
    else fciGo l n left mid closest2
  else closest
termination_by hi - left
decreasing_by
  · omega
  · omega

/-- `TokenizerLazy._find_closest_int(n, sorted_list)`: binary search for the
element of `sorted_list` closest to `n`.  Returns `none` exactly when the
list is empty (Python would return the float `inf`). -/
def find_closest_int (n : ℤ) (l : List ℤ) : Option ℤ :=
  fciGo l n 0 l.length none

/-- `self.time_step_quantizations = [min_time_step * i for i in
range(num_time_step)]` (lines 130-132). -/
def timeLadder (minStep : ℤ) (numSteps : ℕ) : List ℤ :=
  (List.range numSteps).map (fun i : ℕ => minStep * (i : ℤ))

/-- `self.max_time_step = self.time_step_quantizations[-1]` (line 133). -/
def maxTimeStep (minStep : ℤ) (numSteps : ℕ) : ℤ :=
  (timeLadder minStep numSteps).getLastD 0

/-- `self.velocity_quantizations = [i * velocity_step for i in
range(int(127 / velocity_step) + 1)]` (lines 137-140); `int(127/step)`
truncates the float quotient, which for positive integers is `127 / step`. -/
def velocityLadder (step : ℤ) : List ℤ :=
  (List.range ((127 / step).toNat + 1)).map (fun i : ℕ => (i : ℤ) * step)

/-- `self.max_velocity = self.velocity_quantizations[-1]` (line 141). -/
def maxVelocity (step : ℤ) : ℤ := (velocityLadder step).getLastD 0

/-- `TokenizerLazy._quantize_time` (lines 283-287). -/
def quantize_time (minStep : ℤ) (numSteps : ℕ) (time : ℤ) : ℤ :=
  (find_closest_int time (timeLadder minStep numSteps)).getD 0

/-- `TokenizerLazy._quantize_velocity` (lines 289-298): nearest ladder value,
but a non-zero velocity that quantizes to 0 is lifted to `velocity_step`. -/
def quantize_velocity (step : ℤ) (velocity : ℤ) : ℤ :=
  let vq := (find_closest_int velocity (velocityLadder step)).getD 0
  if vq = 0 ∧ velocity ≠ 0 then step else vq

/-- The wait-splitting loop (lines 383-385): `while _wait_duration >
max_time_step: append ("wait", max_time_step); _wait_duration -=
max_time_step`.  Returns the emitted values and the remaining duration.
The loop terminates only for `0 < maxStep` (the constructed ladders have a
positive maximum whenever `min_step > 0` and `num_steps ≥ 2`); the guard
makes the Lean function total. -/
def waitSplitGo (maxStep d : ℤ) : List ℤ × ℤ :=
  if _h : 0 < maxStep ∧ maxStep < d then
    let p := waitSplitGo maxStep (d - maxStep)
    (maxStep :: p.1, p.2)
  else ([], d)
termination_by d.toNat
decreasing_by omega

/-- The wait-token emission for one inter-note gap (lines 381-390): split off
repeated `max_time_step` tokens, then quantize the remainder and emit it only
if non-zero. -/
def waitTokenValues (minStep : ℤ) (numSteps : ℕ) (gap : ℤ) : List ℤ :=
  let maxStep := maxTimeStep minStep numSteps
  let p := waitSplitGo maxStep gap
  let q := quantize_time minStep numSteps p.2
  p.1 ++ (if q ≠ 0 then [q] else [])

/-- The pedal-extension loop over one channel's intervals (lines 342-354):
each interval `[pedal_start, pedal_end)` with `pedal_start ≤ start_tick <
pedal_end` and `end_tick < pedal_end` replaces `end_tick` by `pedal_end`. -/
def applyPedal (intervals : List (ℤ × ℤ)) (start_tick end_tick : ℤ) : ℤ :=
  intervals.foldl
    (fun e iv => if iv.1 ≤ start_tick ∧ start_tick < iv.2 ∧ e < iv.2 then iv.2 else e)
    end_tick

/-- A pedal event: `{"tick": .., "channel": .., "data": ..}`. -/
structure PedalMsg where
  tick : ℤ
  channel : ℤ
  data : ℤ
deriving DecidableEq, Repr

/-- The scan of `TokenizerLazy._build_pedal_intervals` (lines 238-252):
`pedal_status` is the map channel ↦ tick of the currently-open pedal
(a Python dict, modelled as a function to `Option`), and the accumulator
collects closed intervals `(channel, (start, end))` in close order. -/
def pedalScanGo : List PedalMsg → (ℤ → Option ℤ) → List (ℤ × ℤ × ℤ) →
    List (ℤ × ℤ × ℤ) × (ℤ → Option ℤ)
  | [], st, acc => (acc, st)
  | m :: rest, st, acc =>
    match st m.channel with
    | none =>
      if m.data = 1 then
        pedalScanGo rest (fun c => if c = m.channel then some m.tick else st c) acc
      else pedalScanGo rest st acc
    | some s =>
      if m.data = 0 then
        pedalScanGo rest (fun c => if c = m.channel then none else st c)
          (acc ++ [(m.channel, s, m.tick)])
      else pedalScanGo rest st acc

/-- The per-channel view of `_build_pedal_intervals` output (lines 233-259):
the channel's closed intervals in close order, followed by the still-open
interval closed at `finalTick` (`final_tick = note_msgs[-1]["data"]["end"]`).
Each channel has at most one open pedal, so the per-channel list is unchanged
by the cross-channel iteration order of `pedal_status.items()`. -/
def channel_pedal_intervals (msgs : List PedalMsg) (finalTick : ℤ) (c : ℤ) :
    List (ℤ × ℤ) :=
  let p := pedalScanGo msgs (fun _ => none) []
  (p.1.filter (fun t => t.1 = c)).map (fun t => t.2) ++
    (match p.2 c with | some s => [(s, finalTick)] | none => [])

/-- Python slice `l[a:b]` (step 1) for integer bounds: a negative bound
counts from the end, then both bounds are clamped to `[0, len(l)]`. -/
def pySlice {α : Type} (l : List α) (a b : ℤ) : List α :=
  let n : ℤ := l.length
  let lo : ℕ := if a < 0 then (n + a).toNat else min a.toNat l.length
  let hi : ℕ := if b < 0 then (n + b).toNat else min b.toNat l.length
  (l.take hi).drop lo

/-- The strided-windowing loop (lines 416-434) starting at offset `idx`:
while `idx + max_seq_len - prefix_len < len(body)` emit
`present_instruments + body[idx : idx + max_seq_len - prefix_len]` and
advance by `stride_len`; afterwards emit one final window, right-padded to
`max_seq_len` when padding is enabled.  (`stride_len = 0` would loop forever
in Python; the constructor asserts `0 < stride_len < max_seq_len`.) -/
def stridedGo {α : Type} (pfx body : List α) (m s : ℕ) (padding : Bool)
    (padTok : α) (idx : ℕ) : List (List α) :=
  if _h : 0 < s ∧ (idx : ℤ) + ((m : ℤ) - pfx.length) < body.length then
    (pfx ++ pySlice body idx (idx + ((m : ℤ) - pfx.length))) ::
      stridedGo pfx body m s padding padTok (idx + s)
  else
    let lastSeq := pfx ++ pySlice body idx (idx + ((m : ℤ) - pfx.length))
    [if padding then lastSeq ++ List.replicate (m - lastSeq.length) padTok
     else lastSeq]
termination_by ((body.length : ℤ) - ((m : ℤ) - pfx.length) - idx).toNat
decreasing_by omega

/-- The `truncate_type == "strided"` branch (lines 411-434). -/
def strided_windows {α : Type} (pfx body : List α) (m s : ℕ) (padding : Bool)
    (padTok : α) : List (List α) :=
  stridedGo pfx body m s padding padTok 0

/-- A token of the lazy tokenizer.  In Python a token is either a plain
string (the specials `<S>/<E>/<P>/<U>` and the instrument names of the
prefix) or a tuple: `("wait", t)`, `("dur", t)`, `("drum", pitch)`, or
`(instrument, pitch, velocity)`.  The `str` constructor carries the plain
strings, the remaining constructors the tuples tagged by their first
component. -/
inductive Tok where
  | str : String → Tok
  | wait : ℤ → Tok
  | dur : ℤ → Tok
  | drum : ℤ → Tok
  | note : String → ℤ → ℤ → Tok
deriving DecidableEq, Repr

/-- The Python exceptions that can escape `tokenize_midi_dict`:
`indexError` models `note_msgs[-1]` on an empty list (line 255) and
`keyError` models a missing `channel_to_instrument` entry (line 336).
`emptySequenceError` is the error the documentation names for an empty
note stream; no code path raises it. -/
inductive TokErr where
  | indexError : TokErr
  | keyError : TokErr
  | emptySequenceError : TokErr
deriving DecidableEq, Repr

/-- A note message: channel plus `data = {pitch, start, end, velocity}`. -/
structure NoteMsg where
  channel : ℤ
  pitch : ℤ
  velocity : ℤ
  startTick : ℤ
  endTick : ℤ
deriving DecidableEq, Repr

/-- An instrument message: `{"channel": .., "data": program}`. -/
structure InstrumentMsg where
  channel : ℤ
  data : ℤ
deriving DecidableEq, Repr

/-- The slice of `MidiDict` consumed by the tokenizer: note, instrument,
pedal and tempo messages plus `ticks_per_beat` (meta messages are carried
along by the Python code but never read, and are omitted). -/
structure MidiDict where
  note_msgs : List NoteMsg
  instrument_msgs : List InstrumentMsg
  pedal_msgs : List PedalMsg
  tempo_msgs : List (ℤ × ℤ)
  ticks_per_beat : ℤ
deriving Repr

/-- The tokenizer configuration read from `config.json`
(`load_config()["tokenizer"]["lazy"]`, lines 125-141), plus the constructor
arguments of `Tokenizer.__init__`. -/
structure TokCfg where
  ignore : String → Bool
  velocity_step : ℤ
  min_time_step : ℤ
  num_time_step : ℕ
  padding : Bool
  max_seq_len : ℕ
  stride_len : ℕ

/-- `self.program_to_instrument` (lines 180-197): MIDI program number →
instrument-class name.  Total on 0-127; Python raises `KeyError` outside
that range, but every use site indexes with values in range. -/
def programToInstrument (p : ℤ) : String :=
  if p ≤ 7 then "piano"
  else if p ≤ 15 then "chromatic"
  else if p ≤ 23 then "organ"
  else if p ≤ 31 then "guitar"
  else if p ≤ 39 then "bass"
  else if p ≤ 47 then "strings"
  else if p ≤ 55 then "ensemble"
  else if p ≤ 63 then "brass"
  else if p ≤ 71 then "reed"
  else if p ≤ 79 then "pipe"
  else if p ≤ 87 then "synth_lead"
  else if p ≤ 95 then "synth_pad"
  else if p ≤ 103 then "synth_effect"
  else if p ≤ 111 then "ethnic"
  else if p ≤ 119 then "percussive"
  else "sfx"

/-- `TokenizerLazy._remove_instruments` (lines 199-231): programs 1-127 whose
instrument class is ignored are collected, mapped to the channels declaring
them, drum channels 9/16 are exempted, and every message on a remaining
removal channel is dropped (tempo messages carry no channel and default to
-1 in `msg.get("channel", -1)`). -/
def remove_instruments (cfg : TokCfg) (md : MidiDict) : MidiDict :=
  let programs_to_remove : List ℤ :=
    ((List.range 127).map (fun i => (i : ℤ) + 1)).filter
      (fun i => cfg.ignore (programToInstrument i))
  let channels_to_remove0 : List ℤ :=
    (md.instrument_msgs.filter (fun m => m.data ∈ programs_to_remove)).map
      (fun m => m.channel)
  let channels_to_remove := channels_to_remove0.filter (fun c => c ≠ 9 ∧ c ≠ 16)
  { note_msgs := md.note_msgs.filter (fun m => m.channel ∉ channels_to_remove)
    instrument_msgs :=
      md.instrument_msgs.filter (fun m => m.channel ∉ channels_to_remove)
    pedal_msgs := md.pedal_msgs.filter (fun m => m.channel ∉ channels_to_remove)
    tempo_msgs := md.tempo_msgs.filter (fun _ => (-1 : ℤ) ∉ channels_to_remove)
    ticks_per_beat := md.ticks_per_beat }

/-- `TokenizerLazy._build_pedal_intervals` as called from
`tokenize_midi_dict`: the final tick is `note_msgs[-1]["data"]["end"]`
(line 255), which raises `IndexError` when there are no notes. -/
def build_pedal_intervals (md : MidiDict) : Except TokErr (ℤ → List (ℤ × ℤ)) :=
  match md.note_msgs.getLast? with
  | none => .error .indexError
  | some lastNote =>
    .ok (fun c => channel_pedal_intervals md.pedal_msgs lastNote.endTick c)

/-- The "present instruments" prefix (lines 311-323): non-drum instrument
names of the remaining instrument messages in message order, `"drums"`
appended when channel 9 or 16 is used, then Python's `list(set(...))`.
A Python `set` of strings iterates in an unspecified, hash-seed-dependent
order, so the embedding takes the enumeration `σ` of the set as a parameter:
any `σ` producing a duplicate-free list with the same members is a faithful
instance of `list(set(...))`. -/
def presentInstruments (σ : List String → List String) (md : MidiDict) :
    List String :=
  let base := (md.instrument_msgs.filter
      (fun m => m.channel ≠ 9 ∧ m.channel ≠ 16)).map
    (fun m => programToInstrument m.data)
  let channels_used := md.instrument_msgs.map (fun m => m.channel)
  let withDrums :=
    if (9 : ℤ) ∈ channels_used ∨ (16 : ℤ) ∈ channels_used
    then base ++ ["drums"] else base
  σ withDrums

/-- `channel_to_instrument` (lines 305-309) as a lookup: the LAST matching
message wins in a Python dict comprehension, so look up from the reversed
list. -/
def channelToInstrument (md : MidiDict) (c : ℤ) : Option String :=
  match (md.instrument_msgs.reverse.filter
      (fun m => m.channel = c ∧ m.channel ≠ 9 ∧ m.channel ≠ 16)).head? with
  | some m => some (programToInstrument m.data)
  | none => none

/-- The token emission for one note message (lines 328-390): drum tokens for
channels 9/16, otherwise instrument lookup, pedal extension, duration and
velocity quantization with the zero-duration floor, then `Note`+`Duration`
tokens; followed by the wait tokens towards `nextStart` when another note
follows. -/
def noteStep (cfg : TokCfg) (md : MidiDict) (pedals : ℤ → List (ℤ × ℤ))
    (msg : NoteMsg) (nextStart : Option ℤ) : Except TokErr (List Tok) := do
  let noteToks ←
    if msg.channel = 9 ∨ msg.channel = 16 then
      pure [Tok.drum msg.pitch]
    else
      match channelToInstrument md msg.channel with
      | none => .error .keyError
      | some instr => do
        let end2 := applyPedal (pedals msg.channel) msg.startTick msg.endTick
        let rawDur := get_duration_ms msg.startTick end2 md.tempo_msgs
          md.ticks_per_beat
        let vel := quantize_velocity cfg.velocity_step msg.velocity
        let dur0 := quantize_time cfg.min_time_step cfg.num_time_step rawDur
        let dur := if dur0 = 0 then cfg.min_time_step else dur0
        pure [Tok.note instr msg.pitch vel, Tok.dur dur]
  match nextStart with
  | none => pure noteToks
  | some nxt =>
    let gap := get_duration_ms msg.startTick nxt md.tempo_msgs
      md.ticks_per_beat
    pure (noteToks ++
      (waitTokenValues cfg.min_time_step cfg.num_time_step gap).map Tok.wait)

/-- The note-event walk of `tokenize_midi_dict` (lines 326-390). -/
def noteLoop (cfg : TokCfg) (md : MidiDict) (pedals : ℤ → List (ℤ × ℤ)) :
    List NoteMsg → Except TokErr (List Tok)
  | [] => pure []
  | [msg] => noteStep cfg md pedals msg none
  | msg :: msg2 :: rest => do
    let here ← noteStep cfg md pedals msg (some msg2.startTick)
    let there ← noteLoop cfg md pedals (msg2 :: rest)
    pure (here ++ there)

/-- Special-token strings (lines 63-66). -/
def bosTok : Tok := .str "<S>"

def eosTok : Tok := .str "<E>"

def padTok : Tok := .str "<P>"

def unkTok : Tok := .str "<U>"

/-- The three truncation policies of the windower. -/
inductive TruncateType where
  | none : TruncateType
  | default : TruncateType
  | strided : TruncateType
deriving DecidableEq, Repr

/-- `TokenizerLazy.tokenize_midi_dict` (lines 300-436): instrument
filtering, pedal intervals, the present-instruments prefix, the note walk,
and the windower branch selected by `truncate_type`. -/
def tokenize_midi_dict (cfg : TokCfg) (tt : TruncateType)
    (σ : List String → List String) (md0 : MidiDict) :
    Except TokErr (List (List Tok)) := do
  let md := remove_instruments cfg md0
  let pedals ← build_pedal_intervals md
  let pfx := (presentInstruments σ md).map Tok.str
  let body ← noteLoop cfg md pedals md.note_msgs
  match tt with
  | .none => pure [pfx ++ [bosTok] ++ body ++ [eosTok]]
  | .default =>
    let r := pfx ++ [bosTok] ++ body ++ [eosTok]
    let r := if cfg.padding
      then r ++ List.replicate (cfg.max_seq_len - r.length) padTok else r
    pure [r.take cfg.max_seq_len]
  | .strided =>
    pure (strided_windows pfx ([bosTok] ++ body ++ [eosTok])
      cfg.max_seq_len cfg.stride_len cfg.padding padTok)

/-- The per-token transform of `export_pitch_aug` (lines 585-606): strings
and `dur`/`drum`/`wait` tuples pass through; a note tuple gets its pitch
shifted, falling back to the unknown token out of `[0, 127]`.  A 3-tuple
whose first component is one of the reserved tags would also pass through
(`tok[0]` dispatch); no real note token carries such a tag. -/
def pitch_aug_tok (unk : Tok) (p_aug : ℤ) : Tok → Tok
  | .str s => .str s
  | .wait t => .wait t
  | .dur t => .dur t
  | .drum p => .drum p
  | .note instr p v =>
    if instr = "special" ∨ instr = "dur" ∨ instr = "drum" ∨ instr = "wait" then
      .note instr p v
    else if 0 ≤ p + p_aug ∧ p + p_aug ≤ 127 then .note instr (p + p_aug) v
    else unk

/-- `pitch_aug_seq` (lines 580-609) with the drawn offset as a parameter
(`randint(-aug_range, aug_range)` is drawn once per invocation). -/
def pitch_aug_seq (unk : Tok) (src : List Tok) (p_aug : ℤ) : List Tok :=
  src.map (pitch_aug_tok unk p_aug)

/-- The per-token transform of `export_velocity_aug` (lines 638-662):
a note's velocity is shifted and clamped into
`[velocity_step, max_velocity]`. -/
def velocity_aug_tok (velocity_step max_velocity v_aug : ℤ) : Tok → Tok
  | .str s => .str s
  | .wait t => .wait t
  | .dur t => .dur t
  | .drum p => .drum p
  | .note instr p v =>
    if instr = "special" ∨ instr = "dur" ∨ instr = "drum" ∨ instr = "wait" then
      .note instr p v
    else if max_velocity ≤ v + v_aug then .note instr p max_velocity
    else if v + v_aug ≤ velocity_step then .note instr p velocity_step
    else .note instr p (v + v_aug)

/-- `velocity_aug_seq` (lines 632-667) with the drawn offset as a parameter
(`velocity_step * randint(-k, k)` is drawn once per invocation). -/
def velocity_aug_seq (velocity_step max_velocity : ℤ) (src : List Tok)
    (v_aug : ℤ) : List Tok :=
  src.map (velocity_aug_tok velocity_step max_velocity v_aug)

/-- First-occurrence-order de-duplication, via a seen-set accumulator. -/
def dedupSeen : List String → List String → List String
  | _, [] => []
  | seen, a :: l =>
    if a ∈ seen then dedupSeen seen l else a :: dedupSeen (a :: seen) l

/-- First-occurrence-order de-duplication (the order the spec prescribes for
the present-instruments prefix). -/
def dedupKeepFirst (l : List String) : List String := dedupSeen [] l

/-- A set enumeration that lists the members in reverse first-occurrence
order: a legitimate behaviour of Python's `list(set(...))`, whose iteration
order is hash-seed dependent. -/
def revEnum (l : List String) : List String := (dedupKeepFirst l).reverse

/-- The final padded window emitted after the strided loop. -/
def padLast {α : Type} (m : ℕ) (padding : Bool) (pt : α) (w : List α) :
    List α :=
  if padding then w ++ List.replicate (m - w.length) pt else w

/-- A concrete tokenizer configuration: no ignored instruments, velocity
step 10, time ladder 0..100 ms in 10 ms steps, no padding. -/
def cfgEx : TokCfg :=
  { ignore := fun _ => false
    velocity_step := 10
    min_time_step := 10
    num_time_step := 11
    padding := false
    max_seq_len := 6
    stride_len := 2 }

/-- A MidiDict with no note events (one piano declaration, one tempo). -/
def mdNoNotes : MidiDict :=
  { note_msgs := []
    instrument_msgs := [{ channel := 0, data := 0 }]
    pedal_msgs := []
    tempo_msgs := [(0, 500000)]
    ticks_per_beat := 480 }

/-- A MidiDict declaring piano (program 0, channel 0) then organ
(program 20, channel 1); its first-occurrence instrument order is
`["piano", "organ"]`. -/
def mdTwoInstr : MidiDict :=
  { note_msgs := []
    instrument_msgs := [{ channel := 0, data := 0 }, { channel := 1, data := 20 }]
    pedal_msgs := []
    tempo_msgs := [(0, 500000)]
    ticks_per_beat := 480 }

/-! ### Lemmas about the binary search -/

lemma sorted_getD_mono {l : List ℤ} (hs : l.Sorted (· < ·)) {i j : ℕ}
    (hij : i ≤ j) (hj : j < l.length) : l.getD i 0 ≤ l.getD j 0 := by
  rcases Nat.eq_or_lt_of_le hij with rfl | hlt
  · exact le_refl _
  · have hi : i < l.length := lt_trans hlt hj
    rw [List.getD_eq_getElem l 0 hi, List.getD_eq_getElem l 0 hj]
    exact le_of_lt (List.pairwise_iff_getElem.mp hs i j hi hj hlt)

/-- The central invariant of `_find_closest_int`'s loop: starting from a
state whose discarded left part is `< n`, whose discarded right part is
`≥ n`, and whose running `closest` beats the two elements bordering the
active window, the loop returns an element of `l` minimising the absolute
difference to `n`. -/
lemma fciGo_spec (l : List ℤ) (n : ℤ)
    (hmono : ∀ i j, i ≤ j → j < l.length → l.getD i 0 ≤ l.getD j 0) :
    ∀ (fuel left hi : ℕ) (c : Option ℤ), hi - left ≤ fuel →
    hi ≤ l.length → left ≤ hi →
    (∀ i, i < left → l.getD i 0 < n) →
    (∀ i, hi ≤ i → i < l.length → n ≤ l.getD i 0) →
    (c = none → left = 0 ∧ hi = l.length) →
    (∀ x, c = some x → x ∈ l) →
    (∀ x, c = some x → 0 < left →
      (x - n).natAbs ≤ (l.getD (left - 1) 0 - n).natAbs) →
    (∀ x, c = some x → hi < l.length →
      (x - n).natAbs ≤ (l.getD hi 0 - n).natAbs) →
    l ≠ [] →
    ∃ r, fciGo l n left hi c = some r ∧ r ∈ l ∧
      ∀ j, j < l.length → (r - n).natAbs ≤ (l.getD j 0 - n).natAbs := by
  intro fuel
  induction fuel with
  | zero =>
    intro left hi c hfuel hhi hlh hleft hright hnone hmem hpred hsucc hne
    have hlh2 : left = hi := by omega
    subst hlh2
    rw [fciGo]
    simp only [lt_irrefl, dite_false]
    rcases c with _ | x
    · rcases hnone rfl with ⟨h0, hlen⟩
      exact absurd (List.length_eq_zero.mp (by omega)) hne
    · refine ⟨x, rfl, hmem x rfl, ?_⟩
      intro j hj
      by_cases hjl : j < left
      · have h1 : l.getD j 0 ≤ l.getD (left - 1) 0 :=
          hmono j (left - 1) (by omega) (by omega)
        have h2 : l.getD (left - 1) 0 < n := hleft _ (by omega)
        have h3 := hpred x rfl (by omega)
        omega
      · have hhl : left < l.length := by omega
        have h1 : l.getD left 0 ≤ l.getD j 0 := hmono left j (by omega) hj
        have h2 : n ≤ l.getD left 0 := hright left (le_refl _) hhl
        have h3 := hsucc x rfl hhl
        omega
  | succ fuel ih =>
    intro left hi c hfuel hhi hlh hleft hright hnone hmem hpred hsucc hne
    rw [fciGo]
    by_cases hwin : left < hi
    · simp only [hwin, dite_true]
      have hmid1 : left ≤ (left + hi - 1) / 2 := by omega
      have hmid2 : (left + hi - 1) / 2 < hi := by omega
      set mid := (left + hi - 1) / 2 with hmiddef
      have hmidlen : mid < l.length := by omega
      have hvmem : l.getD mid 0 ∈ l := by
        rw [List.getD_eq_getElem l 0 hmidlen]; exact List.getElem_mem _
      set v := l.getD mid 0 with hvdef
      -- the updated `closest` and its properties
      have hstep : ∀ (c2 : Option ℤ),
          (∃ w, c2 = some w ∧ w ∈ l ∧ (w - n).natAbs ≤ (v - n).natAbs ∧
            (∀ x, c = some x → (w - n).natAbs ≤ (x - n).natAbs)) →
          (∃ r, (if v < n then fciGo l n (mid + 1) hi c2
              else fciGo l n left mid c2) = some r ∧ r ∈ l ∧
            ∀ j, j < l.length → (r - n).natAbs ≤ (l.getD j 0 - n).natAbs) := by
        rintro c2 ⟨w, rfl, hwmem, hwv, hwc⟩
        by_cases hvn : v < n
        · simp only [hvn, if_true]
          refine ih (mid + 1) hi (some w) (by omega) hhi (by omega) ?_ hright
            (by simp) (by simpa using hwmem) ?_ ?_ hne
          · intro i hi2
            exact lt_of_le_of_lt (hmono i mid (by omega) hmidlen) hvn
          · intro x hx _
            simp only [Option.some.injEq] at hx
            subst hx
            simp only [Nat.add_sub_cancel, ← hvdef]
            exact hwv
          · intro x hx hhl
            simp only [Option.some.injEq] at hx
            subst hx
            rcases c with _ | y
            · rcases hnone rfl with ⟨_, h2⟩; omega
            · exact le_trans (hwc y rfl) (hsucc y rfl hhl)
        · simp only [hvn, if_false]
          push_neg at hvn
          refine ih left mid (some w) (by omega) (by omega) (by omega) hleft
            ?_ (by simp) (by simpa using hwmem) ?_ ?_ hne
          · intro i hmi hil
            exact le_trans hvn (hmono mid i hmi hil)
          · intro x hx h0
            simp only [Option.some.injEq] at hx
            subst hx
            rcases c with _ | y
            · rcases hnone rfl with ⟨h1, _⟩; omega
            · exact le_trans (hwc y rfl) (hpred y rfl h0)
          · intro x hx _
            simp only [Option.some.injEq] at hx
            subst hx
            simp only [← hvdef]
            exact hwv
      rcases c with _ | x
      · exact hstep (some v) ⟨v, rfl, hvmem, le_refl _, by simp⟩
      · by_cases himp : (v - n).natAbs < (x - n).natAbs
        · simp only [himp, if_true]
          refine hstep (some v) ⟨v, rfl, hvmem, le_refl _, ?_⟩
          intro y hy
          simp only [Option.some.injEq] at hy
          subst hy
          exact le_of_lt himp
        · simp only [himp, if_false]
          refine hstep (some x) ⟨x, rfl, hmem x rfl, by omega, ?_⟩
          intro y hy
          simp only [Option.some.injEq] at hy
          subst hy
          exact le_refl _
    · simp only [hwin, dite_false]
      have hlh2 : left = hi := by omega
      subst hlh2
      rcases c with _ | x
      · rcases hnone rfl with ⟨h0, hlen⟩
        exact absurd (List.length_eq_zero.mp (by omega)) hne
      · refine ⟨x, rfl, hmem x rfl, ?_⟩
        intro j hj
        by_cases hjl : j < left
        · have h1 : l.getD j 0 ≤ l.getD (left - 1) 0 :=
            hmono j (left - 1) (by omega) (by omega)
          have h2 : l.getD (left - 1) 0 < n := hleft _ (by omega)
          have h3 := hpred x rfl (by omega)
          omega
        · have hhl : left < l.length := by omega
          have h1 : l.getD left 0 ≤ l.getD j 0 := hmono left j (by omega) hj
          have h2 : n ≤ l.getD left 0 := hright left (le_refl _) hhl
          have h3 := hsucc x rfl hhl
          omega

/-- `_find_closest_int` on a non-empty monotone list returns a member of the
list minimising the absolute difference to `n`. -/
lemma find_closest_int_spec (n : ℤ) (l : List ℤ)
    (hmono : ∀ i j, i ≤ j → j < l.length → l.getD i 0 ≤ l.getD j 0)
    (hne : l ≠ []) :
    ∃ r, find_closest_int n l = some r ∧ r ∈ l ∧
      ∀ x ∈ l, (r - n).natAbs ≤ (x - n).natAbs := by
  obtain ⟨r, h1, h2, h3⟩ := fciGo_spec l n hmono l.length 0 l.length none
    (by omega) (le_refl _) (by omega) (by omega) (by omega) (by simp)
    (by simp) (by simp) (by simp) hne
  refine ⟨r, h1, h2, ?_⟩
  intro x hx
  obtain ⟨j, hj, rfl⟩ := List.getElem_of_mem hx
  have := h3 j hj
  rwa [List.getD_eq_getElem l 0 hj] at this


/-! ### Lemmas about the quantization ladders -/

lemma timeLadder_length (minStep : ℤ) (numSteps : ℕ) :
    (timeLadder minStep numSteps).length = numSteps := by
  rw [timeLadder, List.length_map, List.length_range]

lemma timeLadder_getD (minStep : ℤ) {numSteps i : ℕ} (h : i < numSteps) :
    (timeLadder minStep numSteps).getD i 0 = minStep * i := by
  simp only [List.getD_eq_getElem?_getD, timeLadder, List.getElem?_map]
  rw [List.getElem?_range h]
  rfl

lemma timeLadder_mono {minStep : ℤ} (hpos : 0 < minStep) (numSteps : ℕ) :
    ∀ i j, i ≤ j → j < (timeLadder minStep numSteps).length →
      (timeLadder minStep numSteps).getD i 0 ≤
        (timeLadder minStep numSteps).getD j 0 := by
  intro i j hij hj
  rw [timeLadder_length] at hj
  rw [timeLadder_getD _ (lt_of_le_of_lt hij hj), timeLadder_getD _ hj]
  have hc : (i : ℤ) ≤ (j : ℤ) := by exact_mod_cast hij
  exact mul_le_mul_of_nonneg_left hc (le_of_lt hpos)

lemma timeLadder_mem_iff (minStep : ℤ) (numSteps : ℕ) (x : ℤ) :
    x ∈ timeLadder minStep numSteps ↔ ∃ i : ℕ, i < numSteps ∧ x = minStep * i := by
  rw [timeLadder]
  constructor
  · intro hx
    obtain ⟨i, hi, rfl⟩ := List.mem_map.mp hx
    exact ⟨i, List.mem_range.mp hi, rfl⟩
  · rintro ⟨i, hi, rfl⟩
    exact List.mem_map.mpr ⟨i, List.mem_range.mpr hi, rfl⟩

lemma maxTimeStep_succ (minStep : ℤ) (k : ℕ) :
    maxTimeStep minStep (k + 1) = minStep * k := by
  rw [maxTimeStep, timeLadder, List.range_succ, List.map_append,
    List.map_cons, List.map_nil, List.getLastD_concat]

lemma velocityLadder_eq_timeLadder (step : ℤ) :
    velocityLadder step = timeLadder step ((127 / step).toNat + 1) := by
  rw [velocityLadder, timeLadder]
  exact List.map_congr_left (fun i _ => mul_comm _ _)

lemma velocityLadder_ne_nil (step : ℤ) : velocityLadder step ≠ [] := by
  rw [velocityLadder_eq_timeLadder]
  intro h
  have := timeLadder_length step ((127 / step).toNat + 1)
  rw [h] at this
  simp at this

/-- `pyRound` of an integer is that integer. -/
lemma pyRound_intCast (z : ℤ) : pyRound ((z : ℤ) : ℚ) = z := by
  have h0 : ((z : ℚ)).floor = z := by
    rw [Rat.floor_def', Rat.num_intCast, Rat.den_intCast, Int.ofNat_one,
      Int.ediv_one]
  norm_num [pyRound, h0]

/-! ### C1: the duration calculator -/

/-- C1: the claim states that for every `start_tick ≤ end_tick`, every
non-decreasing tempo map with at least one entry and every positive
ticks-per-beat, `_get_duration_ms` returns the piecewise-constant time
integral of `[start_tick, end_tick)` over the tempo map.  The code violates
this: when `start_tick` lies beyond the map's last entry and the map has at
least two entries, the index scan falls through to the second-to-last entry
and the first summed segment has a negative tick span at that entry's tempo
— contradicting the function's own index-scan comment (`tempo_msg[idx]
["tick"] < start_tick <= tempo_msg[idx+1]["tick"]`) and its docstring.  At
`start_tick = 300`, `end_tick = 400`, tempo map `[(0, 1000000), (200,
500000)]`, `ticks_per_beat = 100`, the code returns 0 ms while the integral
(100 ticks at tempo 500000, i.e. the spec-side `specDurationMs`) is 500 ms. -/
theorem C1_get_duration_ms_wrong_past_last_tempo :
    get_duration_ms 300 400 [(0, 1000000), (200, 500000)] 100 = 0 ∧
    specDurationMs 300 400 [(0, 1000000), (200, 500000)] 100 = 500 := by
  constructor
  · norm_num [get_duration_ms, segLoop, tick2second, pyRound, Rat.floor]
  · norm_num [specDurationMs, specSegSum, tick2second, pyRound, overlapTicks,
      Rat.floor]

/-! ### C2: the binary-search quantizer -/

/-- C2 (amended): for every integer value and every non-empty strictly
ascending ladder, `_find_closest_int` returns a ladder element minimising
the absolute difference to the value.  The original claim's tie-break rule —
"when two ladder elements are equally close the lower-valued one is
returned" — does not hold (see the counterexample theorem); ties go to
whichever of the two closest elements the search's midpoints visit first. -/
theorem C2_find_closest_int_minimises (n : ℤ) (l : List ℤ)
    (hsorted : l.Sorted (· < ·)) (hne : l ≠ []) :
    ∃ r, find_closest_int n l = some r ∧ r ∈ l ∧
      ∀ x ∈ l, (r - n).natAbs ≤ (x - n).natAbs :=
  find_closest_int_spec n l (fun _ _ hij hj => sorted_getD_mono hsorted hij hj) hne

/-- C2 witness: the minimiser property applied at value 12 on the ladder
`[0, 10, 20, 30]`. -/
theorem C2_find_closest_int_minimises_witness :
    (List.Sorted (· < ·) ([0, 10, 20, 30] : List ℤ) ∧
      ([0, 10, 20, 30] : List ℤ) ≠ []) ∧
    ∃ r, find_closest_int 12 [0, 10, 20, 30] = some r ∧
      r ∈ ([0, 10, 20, 30] : List ℤ) ∧
      ∀ x ∈ ([0, 10, 20, 30] : List ℤ), (r - 12).natAbs ≤ (x - 12).natAbs :=
  ⟨⟨by decide, by decide⟩,
    C2_find_closest_int_minimises 12 [0, 10, 20, 30] (by decide) (by decide)⟩

/-- C2 counterexample: on the ascending ladder `[0, 10, 20]` and value 5 the
search returns 10, although 0 is equally close and lower — the claimed
"lower-valued element wins on ties" is false. -/
theorem C2_find_closest_int_tie_goes_high :
    find_closest_int 5 [0, 10, 20] = some 10 ∧
    ((0 : ℤ) - 5).natAbs = ((10 : ℤ) - 5).natAbs ∧
    (0 : ℤ) ∈ ([0, 10, 20] : List ℤ) ∧ (0 : ℤ) < 10 :=
  ⟨by simp [find_closest_int, fciGo], by decide, by decide, by decide⟩

/-! ### C6: the velocity floor -/

/-- C6: if a non-zero velocity's nearest ladder value (as computed by the
binary search) is 0, `_quantize_velocity` returns `velocity_step` instead,
and `velocity_step` is the smallest non-zero element of the velocity ladder
(the ladder contains a non-zero element for every `0 < velocity_step ≤
127`). -/
theorem C6_quantize_velocity_floor (step v : ℤ) (hstep : 0 < step)
    (hstep127 : step ≤ 127) (hv : v ≠ 0)
    (hnearest : find_closest_int v (velocityLadder step) = some 0) :
    quantize_velocity step v = step ∧ step ∈ velocityLadder step ∧
    step ≠ 0 ∧ ∀ x ∈ velocityLadder step, x ≠ 0 → step ≤ x := by
  refine ⟨?_, ?_, by omega, ?_⟩
  · simp [quantize_velocity, hnearest, hv]
  · rw [velocityLadder_eq_timeLadder, timeLadder_mem_iff]
    refine ⟨1, ?_, by norm_num⟩
    have h1 : (1 : ℤ) ≤ 127 / step := by
      rw [Int.le_ediv_iff_mul_le hstep]; omega
    omega
  · intro x hx hx0
    rw [velocityLadder_eq_timeLadder, timeLadder_mem_iff] at hx
    obtain ⟨i, _, rfl⟩ := hx
    have hi1 : (1 : ℤ) ≤ (i : ℤ) := by
      rcases Nat.eq_zero_or_pos i with rfl | hpos
      · simp at hx0
      · exact_mod_cast hpos
    have h2 : step * 1 ≤ step * i :=
      mul_le_mul_of_nonneg_left hi1 (le_of_lt hstep)
    omega

/-- C6 witness: with `velocity_step = 10`, quantizing velocity 3 (whose
nearest ladder value is 0) returns 10, not 0. -/
theorem C6_quantize_velocity_floor_witness :
    ((0 : ℤ) < 10 ∧ (10 : ℤ) ≤ 127 ∧ (3 : ℤ) ≠ 0 ∧
      find_closest_int 3 (velocityLadder 10) = some 0) ∧
    (quantize_velocity 10 3 = 10 ∧ (10 : ℤ) ∈ velocityLadder 10 ∧
      (10 : ℤ) ≠ 0 ∧ ∀ x ∈ velocityLadder 10, x ≠ 0 → 10 ≤ x) := by
  have hfc : find_closest_int 3 (velocityLadder 10) = some 0 := by
    have hl : velocityLadder 10 = [0,10,20,30,40,50,60,70,80,90,100,110,120] := by
      decide
    rw [hl]
    set_option maxHeartbeats 1000000 in
    set_option maxRecDepth 8000 in
    simp [find_closest_int, fciGo]
  exact ⟨⟨by decide, by decide, by decide, hfc⟩,
    C6_quantize_velocity_floor 10 3 (by decide) (by decide) (by decide) hfc⟩

/-! ### C4: wait splitting -/

lemma waitSplitGo_mem (maxStep : ℤ) :
    ∀ (fuel : ℕ) (d : ℤ), d.toNat ≤ fuel →
      ∀ x ∈ (waitSplitGo maxStep d).1, x = maxStep := by
  intro fuel
  induction fuel with
  | zero =>
    intro d hd x hx
    rw [waitSplitGo] at hx
    have hcond : ¬(0 < maxStep ∧ maxStep < d) := by omega
    simp only [hcond, dite_false] at hx
    simp at hx
  | succ fuel ih =>
    intro d hd x hx
    rw [waitSplitGo] at hx
    by_cases hcond : 0 < maxStep ∧ maxStep < d
    · simp only [hcond, dite_true] at hx
      rcases List.mem_cons.mp hx with h | h
      · exact h
      · exact ih (d - maxStep) (by omega) x h
    · simp only [hcond, dite_false] at hx
      simp at hx

lemma timeLadder_le_max {minStep : ℤ} (hpos : 0 < minStep) (k : ℕ) :
    ∀ x ∈ timeLadder minStep (k + 1), x ≤ minStep * k := by
  intro x hx
  obtain ⟨i, hi, rfl⟩ := (timeLadder_mem_iff _ _ _).mp hx
  have hik : (i : ℤ) ≤ (k : ℤ) := by exact_mod_cast Nat.lt_succ_iff.mp hi
  exact mul_le_mul_of_nonneg_left hik (le_of_lt hpos)

lemma timeLadder_ne_nil (minStep : ℤ) {numSteps : ℕ} (h : 0 < numSteps) :
    timeLadder minStep numSteps ≠ [] := by
  intro hc
  have := timeLadder_length minStep numSteps
  rw [hc] at this
  simp at this
  omega

lemma quantize_time_mem {minStep : ℤ} (hpos : 0 < minStep) {numSteps : ℕ}
    (hnum : 0 < numSteps) (t : ℤ) :
    quantize_time minStep numSteps t ∈ timeLadder minStep numSteps := by
  obtain ⟨r, h1, h2, _⟩ := find_closest_int_spec t (timeLadder minStep numSteps)
    (timeLadder_mono hpos numSteps) (timeLadder_ne_nil minStep hnum)
  rw [quantize_time, h1]
  exact h2

/-- C4: every value emitted by the wait-token loop for a raw inter-note gap
is a member of the time ladder and never exceeds the ladder maximum
`min_time_step * (num_time_step - 1)`: values beyond the maximum are split
into repeated maximum-valued tokens, and the quantized remainder (emitted
only if non-zero) is itself a ladder element. -/
theorem C4_wait_tokens_bounded (minStep : ℤ) (numSteps : ℕ) (gap : ℤ)
    (hpos : 0 < minStep) (hnum : 2 ≤ numSteps) :
    ∀ v ∈ waitTokenValues minStep numSteps gap,
      v ∈ timeLadder minStep numSteps ∧ v ≤ maxTimeStep minStep numSteps := by
  obtain ⟨k, rfl⟩ : ∃ k, numSteps = k + 1 := ⟨numSteps - 1, by omega⟩
  have hk : 1 ≤ k := by omega
  have hmax : maxTimeStep minStep (k + 1) = minStep * k := maxTimeStep_succ _ _
  intro v hv
  rw [waitTokenValues, List.mem_append] at hv
  rcases hv with hv | hv
  · have hveq : v = maxTimeStep minStep (k + 1) :=
      waitSplitGo_mem _ gap.toNat gap (le_refl _) v hv
    subst hveq
    rw [hmax]
    refine ⟨(timeLadder_mem_iff _ _ _).mpr ⟨k, by omega, rfl⟩, le_refl _⟩
  · have hq : v = quantize_time minStep (k + 1)
        (waitSplitGo (maxTimeStep minStep (k + 1)) gap).2 := by
      by_cases hz : quantize_time minStep (k + 1)
          (waitSplitGo (maxTimeStep minStep (k + 1)) gap).2 ≠ 0
      · simpa [hz] using hv
      · simp [hz] at hv
    subst hq
    rw [hmax]
    have hmem := quantize_time_mem hpos (Nat.succ_pos k)
      (waitSplitGo (minStep * (k : ℤ)) gap).2
    exact ⟨hmem, timeLadder_le_max hpos k _ hmem⟩

/-- C4 witness: with minimum step 10 ms and maximum bucket 100 ms
(`num_time_step = 11`), a raw 250 ms gap yields `Wait(100), Wait(100),
Wait(50)`, and the theorem applies: each value is a ladder member not
exceeding 100. -/
theorem C4_wait_tokens_bounded_witness :
    ((0 : ℤ) < 10 ∧ 2 ≤ 11) ∧
    waitTokenValues 10 11 250 = [100, 100, 50] ∧
    maxTimeStep 10 11 = 100 ∧
    (∀ v ∈ waitTokenValues 10 11 250,
      v ∈ timeLadder 10 11 ∧ v ≤ maxTimeStep 10 11) := by
  have hladder : timeLadder 10 11 = [0,10,20,30,40,50,60,70,80,90,100] := by
    decide
  have hmax : maxTimeStep 10 11 = 100 := by decide
  have hsplit : waitSplitGo 100 250 = ([100, 100], 50) := by
    rw [waitSplitGo]
    norm_num
    rw [waitSplitGo]
    norm_num
    rw [waitSplitGo]
    norm_num
  have hq : quantize_time 10 11 50 = 50 := by
    rw [quantize_time, hladder]
    set_option maxHeartbeats 1000000 in
    set_option maxRecDepth 8000 in
    simp [find_closest_int, fciGo]
  have hwv : waitTokenValues 10 11 250 = [100, 100, 50] := by
    rw [waitTokenValues, hmax, hsplit]
    simp [hq]
  exact ⟨⟨by decide, by decide⟩, hwv, hmax,
    C4_wait_tokens_bounded 10 11 250 (by decide) (by decide)⟩

/-! ### C5: pedal extension -/

lemma applyPedal_no_left (startT : ℤ) :
    ∀ (ivs : List (ℤ × ℤ)) (e : ℤ), (∀ iv ∈ ivs, ¬iv.1 ≤ startT) →
      applyPedal ivs startT e = e := by
  intro ivs
  induction ivs with
  | nil => intro e _; rfl
  | cons hd tl ih =>
    intro e hno
    rw [applyPedal, List.foldl_cons]
    have h1 : ¬(hd.1 ≤ startT ∧ startT < hd.2 ∧ e < hd.2) := by
      intro hc
      exact hno hd (List.mem_cons_self _ _) hc.1
    simp only [h1, if_false]
    exact ih e (fun iv hiv => hno iv (List.mem_cons_of_mem _ hiv))

lemma applyPedal_no_match (startT endT : ℤ) :
    ∀ ivs : List (ℤ × ℤ),
      (∀ iv ∈ ivs, ¬(iv.1 ≤ startT ∧ startT < iv.2 ∧ endT < iv.2)) →
      applyPedal ivs startT endT = endT := by
  intro ivs
  induction ivs with
  | nil => intro _; rfl
  | cons hd tl ih =>
    intro hno
    rw [applyPedal, List.foldl_cons]
    have h1 : ¬(hd.1 ≤ startT ∧ startT < hd.2 ∧ endT < hd.2) :=
      hno hd (List.mem_cons_self _ _)
    simp only [h1, if_false]
    exact ih (fun iv hiv => hno iv (List.mem_cons_of_mem _ hiv))

/-- C5: over a disjoint, ordered interval list (as produced by the pedal
extractor), the pedal loop extends a note's end tick to an interval's end
exactly when the note's onset lies in `[start, end)` of that interval and
the unextended end tick precedes that end; a note matching no interval is
left unchanged. -/
theorem C5_pedal_extension (ivs : List (ℤ × ℤ)) (startT endT : ℤ)
    (hdisj : List.Pairwise (fun a b : ℤ × ℤ => a.2 ≤ b.1) ivs) :
    ((∀ iv ∈ ivs, ¬(iv.1 ≤ startT ∧ startT < iv.2 ∧ endT < iv.2)) →
      applyPedal ivs startT endT = endT) ∧
    (∀ iv ∈ ivs, iv.1 ≤ startT → startT < iv.2 → endT < iv.2 →
      applyPedal ivs startT endT = iv.2) := by
  refine ⟨applyPedal_no_match startT endT ivs, ?_⟩
  induction ivs with
  | nil => intro iv hiv; simp at hiv
  | cons hd tl ih =>
    intro iv hiv h1 h2 h3
    rw [List.pairwise_cons] at hdisj
    rcases List.mem_cons.mp hiv with rfl | hivtl
    · rw [applyPedal, List.foldl_cons]
      simp only [h1, h2, h3, and_true, if_true, true_and]
      have : ∀ jv ∈ tl, ¬jv.1 ≤ startT := by
        intro jv hjv
        have := hdisj.1 jv hjv
        omega
      exact applyPedal_no_left startT tl iv.2 this
    · rw [applyPedal, List.foldl_cons]
      have hhd : ¬(hd.1 ≤ startT ∧ startT < hd.2 ∧ endT < hd.2) := by
        have := hdisj.1 iv hivtl
        intro hc
        omega
      simp only [hhd, if_false]
      exact ih hdisj.2 iv hivtl h1 h2 h3

/-- C5 witness: for the pedal interval `[100, 500)`, a note with onset 200
and end 300 is extended to 500, and a note with onset 600 (outside the
interval) keeps its end 650. -/
theorem C5_pedal_extension_witness :
    List.Pairwise (fun a b : ℤ × ℤ => a.2 ≤ b.1) [((100 : ℤ), (500 : ℤ))] ∧
    applyPedal [(100, 500)] 200 300 = 500 ∧
    applyPedal [(100, 500)] 600 650 = 650 := by
  refine ⟨by decide, ?_, ?_⟩
  · exact (C5_pedal_extension [(100, 500)] 200 300 (by decide)).2
      (100, 500) (by decide) (by decide) (by decide) (by decide)
  · exact (C5_pedal_extension [(100, 500)] 600 650 (by decide)).1
      (by decide)

/-! ### C8: pedal interval extraction -/

/-- The per-channel output of the pedal scan from an arbitrary intermediate
state: provided the remaining messages are tick-sorted and every invariant
relating the open-pedal state `st` and the accumulator `acc` to the
remaining messages holds, the final per-channel interval list is ordered
(`end ≤` next `start`) and every interval satisfies `start ≤ end`. -/
lemma pedalScanGo_inv (c finalTick : ℤ) :
    ∀ (msgs : List PedalMsg) (st : ℤ → Option ℤ) (acc : List (ℤ × ℤ × ℤ)),
    List.Pairwise (fun a b : PedalMsg => a.tick ≤ b.tick) msgs →
    (∀ m ∈ msgs, m.tick ≤ finalTick) →
    (∀ s, st c = some s → (∀ m ∈ msgs, s ≤ m.tick) ∧ s ≤ finalTick) →
    (∀ iv ∈ acc, iv.1 = c → iv.2.1 ≤ iv.2.2) →
    (∀ iv ∈ acc, iv.1 = c →
      (∀ m ∈ msgs, iv.2.2 ≤ m.tick) ∧ iv.2.2 ≤ finalTick) →
    (∀ iv ∈ acc, iv.1 = c → ∀ s, st c = some s → iv.2.2 ≤ s) →
    List.Pairwise (fun a b : ℤ × ℤ × ℤ => a.2.2 ≤ b.2.1)
      (acc.filter (fun t => t.1 = c)) →
    (∀ iv ∈ (((pedalScanGo msgs st acc).1.filter
          (fun t => t.1 = c)).map (fun t => t.2) ++
        (match (pedalScanGo msgs st acc).2 c with
          | some s => [(s, finalTick)] | none => [])), iv.1 ≤ iv.2) ∧
    List.Pairwise (fun a b : ℤ × ℤ => a.2 ≤ b.1)
      (((pedalScanGo msgs st acc).1.filter
          (fun t => t.1 = c)).map (fun t => t.2) ++
        (match (pedalScanGo msgs st acc).2 c with
          | some s => [(s, finalTick)] | none => [])) := by
  intro msgs
  induction msgs with
  | nil =>
    intro st acc _ _ hstf hacc1 hacc2 hacc3 hacc4
    simp only [pedalScanGo]
    constructor
    · intro iv hiv
      rcases List.mem_append.mp hiv with hiv | hiv
      · obtain ⟨t, ht, rfl⟩ := List.mem_map.mp hiv
        have ht2 := List.mem_filter.mp ht
        exact hacc1 t ht2.1 (by simpa using ht2.2)
      · rcases hst : st c with _ | s
        · rw [hst] at hiv
          simp at hiv
        · rw [hst] at hiv
          simp only [List.mem_singleton] at hiv
          subst hiv
          exact (hstf s hst).2
    · rw [List.pairwise_append]
      refine ⟨?_, ?_, ?_⟩
      · rw [List.pairwise_map]
        exact hacc4.imp (fun h => h)
      · rcases hst : st c with _ | s
        · exact List.Pairwise.nil
        · simp
      · intro a ha b hb
        obtain ⟨t, ht, rfl⟩ := List.mem_map.mp ha
        have ht2 := List.mem_filter.mp ht
        rcases hst : st c with _ | s
        · rw [hst] at hb
          simp at hb
        · rw [hst] at hb
          simp only [List.mem_singleton] at hb
          subst hb
          exact hacc3 t ht2.1 (by simpa using ht2.2) s hst
  | cons m rest ih =>
    intro st acc hsorted hfin hstf hacc1 hacc2 hacc3 hacc4
    rw [List.pairwise_cons] at hsorted
    have hm : ∀ m2 ∈ rest, m.tick ≤ m2.tick := hsorted.1
    have hmfin : m.tick ≤ finalTick := hfin m (List.mem_cons_self _ _)
    simp only [pedalScanGo]
    rcases hst : st m.channel with _ | s0
    · by_cases hd : m.data = 1
      · simp only [hd, if_true]
        refine ih _ _ hsorted.2 (fun x hx => hfin x (List.mem_cons_of_mem _ hx))
          ?_ hacc1 ?_ ?_ hacc4
        · intro s hs
          by_cases hc : c = m.channel
          · subst hc
            rw [if_pos rfl] at hs
            obtain rfl := Option.some.inj hs
            exact ⟨hm, hmfin⟩
          · rw [if_neg hc] at hs
            obtain ⟨h1, h2⟩ := hstf s hs
            exact ⟨fun x hx => h1 x (List.mem_cons_of_mem _ hx), h2⟩
        · intro iv hiv hivc
          obtain ⟨h1, h2⟩ := hacc2 iv hiv hivc
          exact ⟨fun x hx => h1 x (List.mem_cons_of_mem _ hx), h2⟩
        · intro iv hiv hivc s hs
          by_cases hc : c = m.channel
          · subst hc
            rw [if_pos rfl] at hs
            obtain rfl := Option.some.inj hs
            exact (hacc2 iv hiv hivc).1 m (List.mem_cons_self _ _)
          · rw [if_neg hc] at hs
            exact hacc3 iv hiv hivc s hs
      · simp only [hd, if_false]
        refine ih _ _ hsorted.2 (fun x hx => hfin x (List.mem_cons_of_mem _ hx))
          ?_ hacc1 ?_ ?_ hacc4
        · intro s hs
          obtain ⟨h1, h2⟩ := hstf s hs
          exact ⟨fun x hx => h1 x (List.mem_cons_of_mem _ hx), h2⟩
        · intro iv hiv hivc
          obtain ⟨h1, h2⟩ := hacc2 iv hiv hivc
          exact ⟨fun x hx => h1 x (List.mem_cons_of_mem _ hx), h2⟩
        · exact fun iv hiv hivc s hs => hacc3 iv hiv hivc s hs
    · by_cases hd : m.data = 0
      · simp only [hd, if_true]
        refine ih _ _ hsorted.2 (fun x hx => hfin x (List.mem_cons_of_mem _ hx))
          ?_ ?_ ?_ ?_ ?_
        · intro s hs
          by_cases hc : c = m.channel
          · subst hc
            rw [if_pos rfl] at hs
            exact absurd hs (by simp)
          · rw [if_neg hc] at hs
            obtain ⟨h1, h2⟩ := hstf s hs
            exact ⟨fun x hx => h1 x (List.mem_cons_of_mem _ hx), h2⟩
        · intro iv hiv hivc
          rcases List.mem_append.mp hiv with hiv | hiv
          · exact hacc1 iv hiv hivc
          · simp only [List.mem_singleton] at hiv
            subst hiv
            have hmc : st c = some s0 := by
              have hcm : m.channel = c := hivc
              rw [← hcm]; exact hst
            exact (hstf s0 hmc).1 m (List.mem_cons_self _ _)
        · intro iv hiv hivc
          rcases List.mem_append.mp hiv with hiv | hiv
          · obtain ⟨h1, h2⟩ := hacc2 iv hiv hivc
            exact ⟨fun x hx => h1 x (List.mem_cons_of_mem _ hx), h2⟩
          · simp only [List.mem_singleton] at hiv
            subst hiv
            exact ⟨hm, hmfin⟩
        · intro iv hiv hivc s hs
          by_cases hc : c = m.channel
          · subst hc
            rw [if_pos rfl] at hs
            exact absurd hs (by simp)
          · rw [if_neg hc] at hs
            rcases List.mem_append.mp hiv with hiv | hiv
            · exact hacc3 iv hiv hivc s hs
            · simp only [List.mem_singleton] at hiv
              subst hiv
              exact absurd hivc.symm hc
        · rw [List.filter_append]
          by_cases hc : m.channel = c
          · have hfs : List.filter (fun t => t.1 = c)
                [((m.channel, s0, m.tick) : ℤ × ℤ × ℤ)] =
                [(m.channel, s0, m.tick)] := by
              simp [List.filter, hc]
            rw [hfs, List.pairwise_append]
            refine ⟨hacc4, by simp, ?_⟩
            intro a ha b hb
            simp only [List.mem_singleton] at hb
            subst hb
            have ha2 := List.mem_filter.mp ha
            have : st c = some s0 := by rw [← hc]; exact hst
            exact hacc3 a ha2.1 (by simpa using ha2.2) s0 this
          · have hfs : List.filter (fun t => t.1 = c)
                [((m.channel, s0, m.tick) : ℤ × ℤ × ℤ)] = [] := by
              simp [List.filter, hc]
            rw [hfs, List.append_nil]
            exact hacc4
      · simp only [hd, if_false]
        refine ih _ _ hsorted.2 (fun x hx => hfin x (List.mem_cons_of_mem _ hx))
          ?_ hacc1 ?_ ?_ hacc4
        · intro s hs
          obtain ⟨h1, h2⟩ := hstf s hs
          exact ⟨fun x hx => h1 x (List.mem_cons_of_mem _ hx), h2⟩
        · intro iv hiv hivc
          obtain ⟨h1, h2⟩ := hacc2 iv hiv hivc
          exact ⟨fun x hx => h1 x (List.mem_cons_of_mem _ hx), h2⟩
        · exact fun iv hiv hivc s hs => hacc3 iv hiv hivc s hs

/-- C8 (amended): for every tick-ordered pedal stream whose ticks do not
exceed the closing tick, each channel's extracted interval list is ordered
and non-overlapping (every interval's end is at most the next interval's
start) and every interval satisfies `start_tick ≤ end_tick`.  The original
claim's strict `start_tick < end_tick` fails: a pedal-on and pedal-off at
the same tick produce an empty interval (see the counterexample). -/
theorem C8_pedal_intervals_ordered (msgs : List PedalMsg) (finalTick c : ℤ)
    (hsorted : List.Pairwise (fun a b : PedalMsg => a.tick ≤ b.tick) msgs)
    (hfin : ∀ m ∈ msgs, m.tick ≤ finalTick) :
    (∀ iv ∈ channel_pedal_intervals msgs finalTick c, iv.1 ≤ iv.2) ∧
    List.Pairwise (fun a b : ℤ × ℤ => a.2 ≤ b.1)
      (channel_pedal_intervals msgs finalTick c) := by
  have h := pedalScanGo_inv c finalTick msgs (fun _ => none) [] hsorted hfin
    (by simp) (by simp) (by simp) (by simp) (by simp)
  exact h

/-- C8 witness: a pedal held over `[2, 4]` then re-pressed at 6 and closed
at the final tick 9 yields the disjoint intervals `[(2, 4), (6, 9)]`. -/
theorem C8_pedal_intervals_ordered_witness :
    (List.Pairwise (fun a b : PedalMsg => a.tick ≤ b.tick)
        [⟨2, 0, 1⟩, ⟨4, 0, 0⟩, ⟨6, 0, 1⟩] ∧
      (∀ m ∈ ([⟨2, 0, 1⟩, ⟨4, 0, 0⟩, ⟨6, 0, 1⟩] : List PedalMsg),
        m.tick ≤ 9)) ∧
    channel_pedal_intervals [⟨2, 0, 1⟩, ⟨4, 0, 0⟩, ⟨6, 0, 1⟩] 9 0 =
      [(2, 4), (6, 9)] ∧
    ((∀ iv ∈ channel_pedal_intervals [⟨2, 0, 1⟩, ⟨4, 0, 0⟩, ⟨6, 0, 1⟩] 9 0,
        iv.1 ≤ iv.2) ∧
      List.Pairwise (fun a b : ℤ × ℤ => a.2 ≤ b.1)
        (channel_pedal_intervals [⟨2, 0, 1⟩, ⟨4, 0, 0⟩, ⟨6, 0, 1⟩] 9 0)) :=
  ⟨⟨by decide, by decide⟩, by decide,
    C8_pedal_intervals_ordered [⟨2, 0, 1⟩, ⟨4, 0, 0⟩, ⟨6, 0, 1⟩] 9 0
      (by decide) (by decide)⟩

/-- C8 counterexample: the tick-ordered stream "pedal on at tick 5, pedal
off at tick 5" (all ticks at most the final tick 10) produces the empty
interval `(5, 5)`, refuting the claimed strict `start_tick < end_tick`. -/
theorem C8_pedal_interval_can_be_empty :
    channel_pedal_intervals [⟨5, 0, 1⟩, ⟨5, 0, 0⟩] 10 0 = [(5, 5)] ∧
    List.Pairwise (fun a b : PedalMsg => a.tick ≤ b.tick)
      [⟨5, 0, 1⟩, ⟨5, 0, 0⟩] ∧
    (∀ m ∈ ([⟨5, 0, 1⟩, ⟨5, 0, 0⟩] : List PedalMsg), m.tick ≤ 10) ∧
    ¬((5 : ℤ) < 5) :=
  ⟨by decide, by decide, by decide, by decide⟩

/-! ### C3: strided windowing -/

lemma take_min_length {α : Type} (l : List α) (k : ℕ) :
    l.take (min k l.length) = l.take k := by
  rcases le_or_lt k l.length with h | h
  · rw [min_eq_left h]
  · rw [min_eq_right (le_of_lt h), List.take_length,
      List.take_of_length_le (le_of_lt h)]

lemma drop_min_of_le {α : Type} (l2 : List α) (a L : ℕ) (hlen : l2.length ≤ L) :
    l2.drop (min a L) = l2.drop a := by
  rcases le_or_lt a L with h | h
  · rw [min_eq_left h]
  · rw [min_eq_right (le_of_lt h), List.drop_eq_nil_of_le hlen,
      List.drop_eq_nil_of_le (le_trans hlen (le_of_lt h))]

/-- For non-negative start and span, the Python slice
`l[a : a + w]` is `(l.drop a).take w`. -/
lemma pySlice_nonneg {α : Type} (l : List α) (a w : ℕ) :
    pySlice l (a : ℤ) ((a : ℤ) + (w : ℤ)) = (l.drop a).take w := by
  rw [pySlice]
  simp only [not_lt.mpr (Int.natCast_nonneg a), if_false,
    not_lt.mpr (by positivity : (0 : ℤ) ≤ (a : ℤ) + (w : ℤ)), if_false]
  have h1 : ((a : ℤ) + (w : ℤ)).toNat = a + w := by omega
  have h2 : ((a : ℤ)).toNat = a := by omega
  rw [h1, h2, take_min_length]
  rw [drop_min_of_le (l.take (a + w)) a l.length
    (by rw [List.length_take]; exact min_le_right _ _)]
  rw [List.drop_take]
  congr 1
  omega

/-- Characterization of the strided loop from offset `idx`, for prefix
length at most `m` and positive stride: it emits the windows
`prefix ++ body[idx + i*s : idx + i*s + (m-p)]` for `i = 0, 1, ...` as long
as the slice stops strictly before the end of `body`, and then one final
(possibly padded) window at the next offset. -/
lemma stridedGo_char {α : Type} (pfx body : List α) (m s : ℕ) (padding : Bool)
    (pt : α) (hp : pfx.length ≤ m) (hs : 0 < s) :
    ∀ (fuel idx : ℕ), body.length ≤ idx + fuel →
    ∃ k, stridedGo pfx body m s padding pt idx =
      (List.range k).map
        (fun i => pfx ++ (body.drop (idx + i * s)).take (m - pfx.length))
      ++ [padLast m padding pt
          (pfx ++ (body.drop (idx + k * s)).take (m - pfx.length))] ∧
      (∀ i < k, idx + i * s + (m - pfx.length) < body.length) ∧
      ¬(idx + k * s + (m - pfx.length) < body.length) := by
  have hcast : (m : ℤ) - (pfx.length : ℤ) = ((m - pfx.length : ℕ) : ℤ) := by
    omega
  intro fuel
  induction fuel with
  | zero =>
    intro idx hidx
    rw [stridedGo]
    have hcond : ¬(0 < s ∧ (idx : ℤ) + ((m : ℤ) - (pfx.length : ℤ)) <
        (body.length : ℤ)) := by
      intro hc
      omega
    rw [dif_neg hcond]
    refine ⟨0, ?_, by omega, by omega⟩
    rw [List.range_zero, List.map_nil, List.nil_append]
    rw [hcast, pySlice_nonneg]
    simp only [Nat.zero_mul, Nat.add_zero, padLast]
  | succ fuel ih =>
    intro idx hidx
    rw [stridedGo]
    by_cases hcond : idx + (m - pfx.length) < body.length
    · have hcond2 : 0 < s ∧ (idx : ℤ) + ((m : ℤ) - (pfx.length : ℤ)) <
          (body.length : ℤ) := by
        constructor
        · exact hs
        · omega
      rw [dif_pos hcond2]
      obtain ⟨k, heq, hlt, hnlt⟩ := ih (idx + s) (by omega)
      have hrange : ∀ f : ℕ → List α, (List.range (k + 1)).map f =
          f 0 :: (List.range k).map (fun i => f (i + 1)) := by
        intro f
        rw [List.range_succ_eq_map, List.map_cons, List.map_map]
        rfl
      refine ⟨k + 1, ?_, ?_, ?_⟩
      · rw [heq, hrange, hcast, pySlice_nonneg]
        simp only [Nat.zero_mul, Nat.add_zero, List.cons_append]
        congr 2
        · refine List.map_congr_left ?_
          intro i _
          have harith : idx + s + i * s = idx + (i + 1) * s := by ring
          rw [harith]
        · have harith : idx + s + k * s = idx + (k + 1) * s := by ring
          rw [harith]
      · intro i hi
        rcases Nat.eq_zero_or_pos i with rfl | hipos
        · simpa using hcond
        · obtain ⟨j, rfl⟩ : ∃ j, i = j + 1 := ⟨i - 1, by omega⟩
          have := hlt j (by omega)
          have harith : idx + s + j * s = idx + (j + 1) * s := by ring
          omega
      · have harith : idx + s + k * s = idx + (k + 1) * s := by ring
        omega
    · have hcond2 : ¬(0 < s ∧ (idx : ℤ) + ((m : ℤ) - (pfx.length : ℤ)) <
          (body.length : ℤ)) := by
        intro hc
        omega
      rw [dif_neg hcond2]
      refine ⟨0, ?_, by omega, by simpa using hcond⟩
      rw [List.range_zero, List.map_nil, List.nil_append]
      rw [hcast, pySlice_nonneg]
      simp only [Nat.zero_mul, Nat.add_zero, padLast]

/-- C3 (amended with the prefix-fits hypothesis `p ≤ max_seq_len`): under
`truncate_type = strided` with `0 < stride_len < max_seq_len` and prefix
length `p ≤ max_seq_len`, the windower emits
`prefix ++ body[i*s : i*s + (m-p)]` for offsets `0, s, 2s, ...` while
`offset + (m-p) < len(body)`, then one final window at the next offset
(right-padded to `m` exactly when padding is enabled), and every window
except the last has exactly `m` tokens.  Without `p ≤ m` the claim is false
(see the counterexample): a negative Python slice bound wraps around. -/
theorem C3_strided_windowing {α : Type} (pfx body : List α) (m s : ℕ)
    (padding : Bool) (pt : α) (hp : pfx.length ≤ m) (hs : 0 < s)
    (_hsm : s < m) :
    ∃ k, strided_windows pfx body m s padding pt =
      (List.range k).map
        (fun i => pfx ++ (body.drop (i * s)).take (m - pfx.length))
      ++ [padLast m padding pt
          (pfx ++ (body.drop (k * s)).take (m - pfx.length))] ∧
      (∀ i < k, i * s + (m - pfx.length) < body.length) ∧
      ¬(k * s + (m - pfx.length) < body.length) ∧
      (∀ w ∈ (strided_windows pfx body m s padding pt).dropLast,
        w.length = m) := by
  obtain ⟨k, heq, hlt, hnlt⟩ :=
    stridedGo_char pfx body m s padding pt hp hs body.length 0 (by omega)
  simp only [Nat.zero_add] at heq hlt hnlt
  refine ⟨k, heq, hlt, hnlt, ?_⟩
  intro w hw
  rw [strided_windows, heq, List.dropLast_concat] at hw
  obtain ⟨i, hi, rfl⟩ := List.mem_map.mp hw
  rw [List.mem_range] at hi
  have hcond := hlt i hi
  rw [List.length_append, List.length_take, List.length_drop]
  omega

/-- C3 witness: the claim's own instance — prefix length 2, body length 10,
`max_seq_len = 6`, `stride_len = 2` — produces exactly 4 windows of length
6 at body offsets 0, 2, 4, 6, with no padding needed. -/
theorem C3_strided_windowing_witness :
    (([100, 101] : List ℕ).length ≤ 6 ∧ 0 < 2 ∧ 2 < 6) ∧
    strided_windows ([100, 101] : List ℕ) [0, 1, 2, 3, 4, 5, 6, 7, 8, 9]
        6 2 false 99 =
      [[100, 101, 0, 1, 2, 3], [100, 101, 2, 3, 4, 5],
       [100, 101, 4, 5, 6, 7], [100, 101, 6, 7, 8, 9]] ∧
    (∃ k, strided_windows ([100, 101] : List ℕ) [0, 1, 2, 3, 4, 5, 6, 7, 8, 9]
        6 2 false 99 =
      (List.range k).map
        (fun i => [100, 101] ++
          (([0, 1, 2, 3, 4, 5, 6, 7, 8, 9] : List ℕ).drop (i * 2)).take (6 - 2))
      ++ [padLast 6 false 99
          ([100, 101] ++
            (([0, 1, 2, 3, 4, 5, 6, 7, 8, 9] : List ℕ).drop (k * 2)).take (6 - 2))] ∧
      (∀ i < k, i * 2 + (6 - 2) < 10) ∧ ¬(k * 2 + (6 - 2) < 10) ∧
      (∀ w ∈ (strided_windows ([100, 101] : List ℕ)
          [0, 1, 2, 3, 4, 5, 6, 7, 8, 9] 6 2 false 99).dropLast,
        w.length = 6)) := by
  refine ⟨⟨by decide, by decide, by decide⟩, ?_, ?_⟩
  · rw [strided_windows, stridedGo]
    norm_num [pySlice]
    rw [stridedGo]
    norm_num [pySlice]
    rw [stridedGo]
    norm_num [pySlice]
    rw [stridedGo]
    norm_num [pySlice]
    decide
  · have h := C3_strided_windowing ([100, 101] : List ℕ)
      [0, 1, 2, 3, 4, 5, 6, 7, 8, 9] 6 2 false 99 (by decide) (by decide)
      (by decide)
    simpa using h

/-- C3 counterexample: with prefix length 3 exceeding `max_seq_len = 2`
(stride 1, so `0 < stride_len < max_seq_len` holds), the very first window —
not the last — has 7 tokens instead of `max_seq_len = 2`: the negative
Python slice bound `body[0:-1]` keeps almost the whole body. -/
theorem C3_strided_window_not_max_len :
    ((0 : ℕ) < 1 ∧ 1 < 2) ∧
    (strided_windows ([0, 1, 2] : List ℕ) [10, 11, 12, 13, 14]
        2 1 false 99).head? = some [0, 1, 2, 10, 11, 12, 13] ∧
    (strided_windows ([0, 1, 2] : List ℕ) [10, 11, 12, 13, 14]
        2 1 false 99).length = 7 ∧
    ([0, 1, 2, 10, 11, 12, 13] : List ℕ).length ≠ 2 := by
  have hval : strided_windows ([0, 1, 2] : List ℕ) [10, 11, 12, 13, 14]
      2 1 false 99 =
      [[0, 1, 2, 10, 11, 12, 13], [0, 1, 2], [0, 1, 2], [0, 1, 2], [0, 1, 2],
       [0, 1, 2], [0, 1, 2]] := by
    rw [strided_windows, stridedGo]
    norm_num [pySlice]
    rw [stridedGo]
    norm_num [pySlice]
    rw [stridedGo]
    norm_num [pySlice]
    rw [stridedGo]
    norm_num [pySlice]
    rw [stridedGo]
    norm_num [pySlice]
    rw [stridedGo]
    norm_num [pySlice]
    rw [stridedGo]
    norm_num [pySlice]
    decide
  refine ⟨⟨by decide, by decide⟩, ?_, ?_, by decide⟩
  · rw [hval]
    rfl
  · rw [hval]
    rfl

/-! ### C7: encoding an empty note stream -/

/-- C7 (amended): encoding an event stream with no note events always
fails, but with the `IndexError` raised by `note_msgs[-1]` inside
`_build_pedal_intervals` — after instrument filtering has already run — and
not with a dedicated `EmptySequenceError` precondition check (no such check
or exception exists in the code). -/
theorem C7_empty_notes_index_error (cfg : TokCfg) (tt : TruncateType)
    (σ : List String → List String) (md : MidiDict)
    (hmd : md.note_msgs = []) :
    tokenize_midi_dict cfg tt σ md = .error .indexError := by
  have h1 : (remove_instruments cfg md).note_msgs = [] := by
    rw [remove_instruments]
    simp [hmd]
  rw [tokenize_midi_dict, build_pedal_intervals, h1]
  rfl

/-- C7 witness: the amended theorem applied to the concrete no-note
MidiDict. -/
theorem C7_empty_notes_index_error_witness :
    mdNoNotes.note_msgs = [] ∧
    tokenize_midi_dict cfgEx .none dedupKeepFirst mdNoNotes =
      .error .indexError :=
  ⟨rfl, C7_empty_notes_index_error cfgEx .none dedupKeepFirst mdNoNotes rfl⟩

/-- C7 counterexample: on the concrete empty-note stream the encoder fails
with `IndexError`, which is not the claimed `EmptySequenceError` (no code
path raises an `EmptySequenceError`). -/
theorem C7_error_is_not_empty_sequence_error :
    tokenize_midi_dict cfgEx .none dedupKeepFirst mdNoNotes =
      .error .indexError ∧
    TokErr.indexError ≠ TokErr.emptySequenceError := by
  constructor
  · rfl
  · decide

/-! ### C9: the present-instruments prefix -/

lemma dedupSeen_mem :
    ∀ (l seen : List String) (a : String),
      a ∈ dedupSeen seen l ↔ a ∈ l ∧ a ∉ seen := by
  intro l
  induction l with
  | nil => intro seen a; simp [dedupSeen]
  | cons b l ih =>
    intro seen a
    rw [dedupSeen]
    by_cases hb : b ∈ seen
    · rw [if_pos hb, ih]
      constructor
      · rintro ⟨h1, h2⟩
        exact ⟨List.mem_cons_of_mem _ h1, h2⟩
      · rintro ⟨h1, h2⟩
        rcases List.mem_cons.mp h1 with rfl | h1
        · exact absurd hb h2
        · exact ⟨h1, h2⟩
    · rw [if_neg hb]
      constructor
      · intro h
        rcases List.mem_cons.mp h with rfl | h
        · exact ⟨List.mem_cons_self _ _, hb⟩
        · rw [ih] at h
          refine ⟨List.mem_cons_of_mem _ h.1, ?_⟩
          intro hc
          exact h.2 (List.mem_cons_of_mem _ hc)
      · rintro ⟨h1, h2⟩
        by_cases hab : a = b
        · subst hab
          exact List.mem_cons_self _ _
        · have h1x : a ∈ l := by
            rcases List.mem_cons.mp h1 with h | h
            · exact absurd h hab
            · exact h
          refine List.mem_cons_of_mem _ ?_
          rw [ih]
          refine ⟨h1x, ?_⟩
          intro hc
          rcases List.mem_cons.mp hc with h | h
          · exact hab h
          · exact h2 h

lemma dedupSeen_nodup :
    ∀ (l seen : List String), (dedupSeen seen l).Nodup := by
  intro l
  induction l with
  | nil => intro seen; simp [dedupSeen]
  | cons b l ih =>
    intro seen
    rw [dedupSeen]
    by_cases hb : b ∈ seen
    · rw [if_pos hb]; exact ih seen
    · rw [if_neg hb]
      refine List.nodup_cons.mpr ⟨?_, ih (b :: seen)⟩
      intro hc
      rw [dedupSeen_mem] at hc
      exact hc.2 (List.mem_cons_self _ _)

lemma dedupKeepFirst_nodup (l : List String) : (dedupKeepFirst l).Nodup :=
  dedupSeen_nodup l []

lemma dedupKeepFirst_mem (l : List String) :
    ∀ a, a ∈ dedupKeepFirst l ↔ a ∈ l := by
  intro a
  rw [dedupKeepFirst, dedupSeen_mem]
  simp

/-- C9 (amended): for every faithful enumeration `σ` of Python's
`list(set(...))` — i.e. producing a duplicate-free list with exactly the
members of its input — the present-instruments prefix is duplicate-free and
contains exactly the non-drum instrument names of the remaining
instrument-declaration messages, plus the literal drum marker exactly when
a drum-channel declaration exists.  Its ORDER, however, is whatever the set
enumeration yields; the first-occurrence order asserted by the original
claim is not guaranteed (see the counterexample). -/
theorem C9_present_instruments_set (σ : List String → List String)
    (md : MidiDict)
    (hσ : ∀ l : List String, (σ l).Nodup ∧ ∀ a, a ∈ σ l ↔ a ∈ l) :
    (presentInstruments σ md).Nodup ∧
    ∀ a, a ∈ presentInstruments σ md ↔
      ((∃ msg ∈ md.instrument_msgs, msg.channel ≠ 9 ∧ msg.channel ≠ 16 ∧
          a = programToInstrument msg.data) ∨
        (a = "drums" ∧ ∃ msg ∈ md.instrument_msgs,
          msg.channel = 9 ∨ msg.channel = 16)) := by
  rw [presentInstruments]
  constructor
  · exact (hσ _).1
  · intro a
    rw [(hσ _).2 a]
    by_cases hdrum : (9 : ℤ) ∈ md.instrument_msgs.map (fun m => m.channel) ∨
        (16 : ℤ) ∈ md.instrument_msgs.map (fun m => m.channel)
    · rw [if_pos hdrum]
      rw [List.mem_append, List.mem_map]
      constructor
      · rintro (⟨msg, hmsg, rfl⟩ | hd)
        · have h2 := List.mem_filter.mp hmsg
          refine Or.inl ⟨msg, h2.1, ?_, ?_, rfl⟩
          · have := h2.2
            simp only [decide_eq_true_eq] at this
            exact this.1
          · have := h2.2
            simp only [decide_eq_true_eq] at this
            exact this.2
        · simp only [List.mem_singleton] at hd
          subst hd
          refine Or.inr ⟨rfl, ?_⟩
          rcases hdrum with h | h
          · obtain ⟨msg, hmsg, hch⟩ := List.mem_map.mp h
            exact ⟨msg, hmsg, Or.inl hch⟩
          · obtain ⟨msg, hmsg, hch⟩ := List.mem_map.mp h
            exact ⟨msg, hmsg, Or.inr hch⟩
      · rintro (⟨msg, hmsg, h9, h16, rfl⟩ | ⟨rfl, _⟩)
        · refine Or.inl ⟨msg, List.mem_filter.mpr ⟨hmsg, ?_⟩, rfl⟩
          simp only [decide_eq_true_eq]
          exact ⟨h9, h16⟩
        · exact Or.inr (List.mem_singleton.mpr rfl)
    · rw [if_neg hdrum]
      rw [List.mem_map]
      constructor
      · rintro ⟨msg, hmsg, rfl⟩
        have h2 := List.mem_filter.mp hmsg
        refine Or.inl ⟨msg, h2.1, ?_, ?_, rfl⟩
        · have := h2.2
          simp only [decide_eq_true_eq] at this
          exact this.1
        · have := h2.2
          simp only [decide_eq_true_eq] at this
          exact this.2
      · rintro (⟨msg, hmsg, h9, h16, rfl⟩ | ⟨rfl, msg, hmsg, hch⟩)
        · refine ⟨msg, List.mem_filter.mpr ⟨hmsg, ?_⟩, rfl⟩
          simp only [decide_eq_true_eq]
          exact ⟨h9, h16⟩
        · exfalso
          apply hdrum
          rcases hch with h | h
          · exact Or.inl (List.mem_map.mpr ⟨msg, hmsg, h⟩)
          · exact Or.inr (List.mem_map.mpr ⟨msg, hmsg, h⟩)

/-- C9 witness: the amended theorem applied with the first-occurrence
enumeration on the two-instrument stream. -/
theorem C9_present_instruments_set_witness :
    (∀ l : List String, (dedupKeepFirst l).Nodup ∧
      ∀ a, a ∈ dedupKeepFirst l ↔ a ∈ l) ∧
    ((presentInstruments dedupKeepFirst mdTwoInstr).Nodup ∧
      ∀ a, a ∈ presentInstruments dedupKeepFirst mdTwoInstr ↔
        ((∃ msg ∈ mdTwoInstr.instrument_msgs,
            msg.channel ≠ 9 ∧ msg.channel ≠ 16 ∧
            a = programToInstrument msg.data) ∨
          (a = "drums" ∧ ∃ msg ∈ mdTwoInstr.instrument_msgs,
            msg.channel = 9 ∨ msg.channel = 16))) :=
  ⟨fun l => ⟨dedupKeepFirst_nodup l, dedupKeepFirst_mem l⟩,
    C9_present_instruments_set dedupKeepFirst mdTwoInstr
      (fun l => ⟨dedupKeepFirst_nodup l, dedupKeepFirst_mem l⟩)⟩

/-- C9 counterexample: `revEnum` is a faithful set enumeration (at the
relevant input it is duplicate-free with exactly the input's members), yet
the prefix it produces is `["organ", "piano"]`, not the first-occurrence
order `["piano", "organ"]` — so the prefix order is not determined by the
code, contradicting the claimed first-occurrence ordering. -/
theorem C9_prefix_order_not_guaranteed :
    revEnum ["piano", "organ"] = ["organ", "piano"] ∧
    (["organ", "piano"] : List String).Nodup ∧
    (∀ a ∈ (["organ", "piano"] : List String),
      a ∈ (["piano", "organ"] : List String)) ∧
    (∀ a ∈ (["piano", "organ"] : List String),
      a ∈ (["organ", "piano"] : List String)) ∧
    presentInstruments revEnum mdTwoInstr = ["organ", "piano"] ∧
    presentInstruments dedupKeepFirst mdTwoInstr = ["piano", "organ"] ∧
    (["organ", "piano"] : List String) ≠ ["piano", "organ"] := by
  refine ⟨by decide, by decide, by decide, by decide, by decide, by decide,
    by decide⟩

/-! ### C10: augmentation boundedness -/

/-- C10: for every token sequence (whose note tokens carry genuine
instrument names, i.e. none of the reserved tuple tags) and every drawn
offset, (i) pitch augmentation never produces a note token with pitch
outside `[0, 127]` — an out-of-range shift yields the unknown token and all
non-note tokens pass through unchanged — and (ii) velocity augmentation
never produces a note token with velocity outside
`[velocity_step, max_velocity]` (clamped, not wrapped). -/
theorem C10_augmentation_bounded (src : List Tok) (p_aug v_aug step maxV : ℤ)
    (hsrc : ∀ i p v, Tok.note i p v ∈ src →
      ¬(i = "special" ∨ i = "dur" ∨ i = "drum" ∨ i = "wait"))
    (hsm : step ≤ maxV) :
    (∀ i p v, Tok.note i p v ∈ pitch_aug_seq unkTok src p_aug →
      0 ≤ p ∧ p ≤ 127) ∧
    (∀ i p v, Tok.note i p v ∈ src →
      ¬(0 ≤ p + p_aug ∧ p + p_aug ≤ 127) →
      pitch_aug_tok unkTok p_aug (Tok.note i p v) = unkTok) ∧
    (∀ t ∈ src, (∀ i p v, t ≠ Tok.note i p v) →
      pitch_aug_tok unkTok p_aug t = t ∧
      velocity_aug_tok step maxV v_aug t = t) ∧
    (∀ i p v, Tok.note i p v ∈ velocity_aug_seq step maxV src v_aug →
      step ≤ v ∧ v ≤ maxV) := by
  refine ⟨?_, ?_, ?_, ?_⟩
  · intro i p v hmem
    obtain ⟨t, ht, heq⟩ := List.mem_map.mp hmem
    cases t with
    | str s0 =>
      rw [pitch_aug_tok] at heq
      exact absurd heq (by simp [unkTok])
    | wait t0 => exact absurd heq (by simp [pitch_aug_tok])
    | dur t0 => exact absurd heq (by simp [pitch_aug_tok])
    | drum t0 => exact absurd heq (by simp [pitch_aug_tok])
    | note i0 p0 v0 =>
      rw [pitch_aug_tok] at heq
      have hres := hsrc i0 p0 v0 ht
      rw [if_neg hres] at heq
      by_cases hrange : 0 ≤ p0 + p_aug ∧ p0 + p_aug ≤ 127
      · rw [if_pos hrange] at heq
        have h1 : p = p0 + p_aug := by
          cases heq
          rfl
        omega
      · rw [if_neg hrange] at heq
        exact absurd heq.symm (by simp [unkTok])
  · intro i p v hmem hrange
    rw [pitch_aug_tok, if_neg (hsrc i p v hmem), if_neg hrange]
  · intro t _ hnote
    cases t with
    | str s0 => exact ⟨rfl, rfl⟩
    | wait t0 => exact ⟨rfl, rfl⟩
    | dur t0 => exact ⟨rfl, rfl⟩
    | drum t0 => exact ⟨rfl, rfl⟩
    | note i0 p0 v0 => exact absurd rfl (hnote i0 p0 v0)
  · intro i p v hmem
    obtain ⟨t, ht, heq⟩ := List.mem_map.mp hmem
    cases t with
    | str s0 =>
      rw [velocity_aug_tok] at heq
      exact absurd heq (by simp)
    | wait t0 => exact absurd heq (by simp [velocity_aug_tok])
    | dur t0 => exact absurd heq (by simp [velocity_aug_tok])
    | drum t0 => exact absurd heq (by simp [velocity_aug_tok])
    | note i0 p0 v0 =>
      rw [velocity_aug_tok] at heq
      rw [if_neg (hsrc i0 p0 v0 ht)] at heq
      by_cases hmax : maxV ≤ v0 + v_aug
      · rw [if_pos hmax] at heq
        have : v = maxV := by
          cases heq
          rfl
        omega
      · rw [if_neg hmax] at heq
        by_cases hmin : v0 + v_aug ≤ step
        · rw [if_pos hmin] at heq
          have : v = step := by
            cases heq
            rfl
          omega
        · rw [if_neg hmin] at heq
          have : v = v0 + v_aug := by
            cases heq
            rfl
          omega

/-- C10 witness: on the sequence `[<S>, Note(piano, 60, 60), Dur(100)]` with
pitch offset 100 (out of range: 160) and velocity offset -1000 (clamped to
the velocity step 10, with max velocity 120), the theorem applies. -/
theorem C10_augmentation_bounded_witness :
    ((∀ i p v, Tok.note i p v ∈
        [Tok.str "<S>", Tok.note "piano" 60 60, Tok.dur 100] →
        ¬(i = "special" ∨ i = "dur" ∨ i = "drum" ∨ i = "wait")) ∧
      (10 : ℤ) ≤ 120) ∧
    pitch_aug_seq unkTok [Tok.str "<S>", Tok.note "piano" 60 60, Tok.dur 100]
        100 = [Tok.str "<S>", Tok.str "<U>", Tok.dur 100] ∧
    velocity_aug_seq 10 120
        [Tok.str "<S>", Tok.note "piano" 60 60, Tok.dur 100] (-1000) =
      [Tok.str "<S>", Tok.note "piano" 60 10, Tok.dur 100] ∧
    (∀ i p v, Tok.note i p v ∈ pitch_aug_seq unkTok
        [Tok.str "<S>", Tok.note "piano" 60 60, Tok.dur 100] 100 →
      0 ≤ p ∧ p ≤ 127) ∧
    (∀ i p v, Tok.note i p v ∈ velocity_aug_seq 10 120
        [Tok.str "<S>", Tok.note "piano" 60 60, Tok.dur 100] (-1000) →
      10 ≤ v ∧ v ≤ 120) := by
  have hsrcEx : ∀ i p v, Tok.note i p v ∈
      [Tok.str "<S>", Tok.note "piano" 60 60, Tok.dur 100] →
      ¬(i = "special" ∨ i = "dur" ∨ i = "drum" ∨ i = "wait") := by
    intro i p v hmem
    simp only [List.mem_cons, List.not_mem_nil, or_false, Tok.note.injEq,
      reduceCtorEq, false_or] at hmem
    obtain ⟨rfl, -, -⟩ := hmem
    decide
  have h := C10_augmentation_bounded
    [Tok.str "<S>", Tok.note "piano" 60 60, Tok.dur 100] 100 (-1000) 10 120
    hsrcEx (by decide)
  exact ⟨⟨hsrcEx, by decide⟩, by decide, by decide, h.1, h.2.2.2⟩

end Aria
